import Mathlib

/-!
Verification development for the wily git archiver
(`src/wily/archivers/git.py`).

Python byte/str values are embedded as `List Char`; git trees are embedded
structurally (a tree is a list of named entries, each a blob with a
content-identifying sha or a subdirectory).  The dulwich object store is
content-addressed, so a tree id is identified with the tree value it denotes.
-/

set_option autoImplicit false

namespace WilyGit

/-- Python strings (and decoded bytes) as lists of characters. -/
abbrev PyStr := List Char

/-- Python `s.split(sep)` for a single-character separator: splits at every
occurrence of `sep`, keeping empty pieces, and returns `[s]` when `sep` does
not occur (in particular `[""]` for the empty string). -/
def pysplit (sep : Char) : List Char → List (List Char)
  | [] => [[]]
  | c :: rest =>
    match pysplit sep rest with
    | [] => [[]]
    | h :: t => if c = sep then [] :: h :: t else (c :: h) :: t

/-- Python `s.strip(chars)`: removes leading and trailing characters that are
members of `chars`. -/
def pystrip (chars : List Char) (s : List Char) : List Char :=
  ((s.dropWhile (· ∈ chars)).reverse.dropWhile (· ∈ chars)).reverse

/-- A git tree entry: a blob (file) with a content-identifying sha, or a
subdirectory with its own entries. -/
inductive TreeE where
  | blob (name : PyStr) (sha : Nat)
  | dir (name : PyStr) (entries : List TreeE)

/-- A git tree: the ordered entries of the root directory. -/
abbrev Tree := List TreeE

/-- `posixpath.join(base, name)` as used by `list_tree`: the source only joins
when `base` is non-empty (`if base:`), and git tree entry names are relative,
so the join is plain concatenation with a slash. -/
def pjoin (base name : PyStr) : PyStr :=
  if base = [] then name else base ++ '/' :: name

mutual

/-- The lines written by `ls_tree`'s inner `list_tree` for one entry, with
`recursive=True` and `name_only=True` (the only configuration the archiver
uses): a blob's joined path is written when `dir_only` is false, a
directory's joined path is written when `dir_only` is true, and directories
are always recursed into. -/
def list_tree_entry (dir_only : Bool) (base : PyStr) : TreeE → List PyStr
  | .blob name _ =>
    if !dir_only then [pjoin base name] else []
  | .dir name es =>
    (if dir_only then [pjoin base name] else []) ++
      list_tree_entries dir_only (pjoin base name) es

/-- The lines written by `list_tree` for a list of entries, in order. -/
def list_tree_entries (dir_only : Bool) (base : PyStr) : List TreeE → List PyStr
  | [] => []
  | e :: es =>
    list_tree_entry dir_only base e ++ list_tree_entries dir_only base es

end

/-- The bytes accumulated in `ls_tree`'s output stream: each listed name is
written followed by a newline. -/
def ls_tree (dir_only : Bool) (t : Tree) : List Char :=
  ((list_tree_entries dir_only [] t).map (· ++ ['\n'])).flatten

/-- `get_tracked_files_dirs`: decodes the two `ls_tree` outputs, splits them
on newlines, removes the first empty entry from the file list
(`dpaths.remove("")`), and appends an empty entry to the directory list
(`+ [""]`). -/
def get_tracked_files_dirs (t : Tree) : List PyStr × List PyStr :=
  let dpaths := (pysplit '\n' (ls_tree false t)).erase []
  let ddirs := pysplit '\n' (ls_tree true t) ++ [[]]
  (dpaths, ddirs)

mutual

/-- The flattened content of a tree: every file's full path paired with its
blob sha, in depth-first order. -/
def flattenE (base : PyStr) : TreeE → List (PyStr × Nat)
  | .blob name sha => [(pjoin base name, sha)]
  | .dir name es => flattenEs (pjoin base name) es

/-- Flattened content of a list of tree entries. -/
def flattenEs (base : PyStr) : List TreeE → List (PyStr × Nat)
  | [] => []
  | e :: es => flattenE base e ++ flattenEs base es

end

/-- Flattened content of a whole tree. -/
def treeFiles (t : Tree) : List (PyStr × Nat) :=
  flattenEs [] t

/-- First-match association-list lookup (path → sha). -/
def lookupA (l : List (PyStr × Nat)) (p : PyStr) : Option Nat :=
  match l with
  | [] => none
  | e :: es => if e.1 = p then some e.2 else lookupA es p

/-- `whatchanged(tree_a, tree_b, store)`: classifies the changes reported by
`tree_changes(store, tree_b, tree_a)` (old tree `tree_b`, new tree `tree_a`)
into added, modified and deleted path lists.  With the default
`rename_detector=None` and `want_unchanged=False`, dulwich reports exactly:
`add` for a path present only in the new tree, `delete` for a path present
only in the old tree, and `modify` for a path present in both with differing
blobs; no `rename`/`copy` change is ever produced, so the source's dead
`renamed` branch contributes nothing.  The store argument is elided because
tree ids are content-addressed and embedded as the tree values themselves. -/
def whatchanged (tree_a tree_b : Tree) :
    List PyStr × List PyStr × List PyStr :=
  let newF := treeFiles tree_a
  let oldF := treeFiles tree_b
  let dadded := (newF.filter (fun e => (lookupA oldF e.1).isNone)).map Prod.fst
  let dmodified :=
    (newF.filter (fun e =>
      match lookupA oldF e.1 with
      | some s => s != e.2
      | none => false)).map Prod.fst
  let ddeleted := (oldF.filter (fun e => (lookupA newF e.1).isNone)).map Prod.fst
  (dadded, dmodified, ddeleted)

/-- A commit object as the archiver reads it from dulwich: decoded hex id,
parent ids, the tree it points to (content-addressed, embedded by value),
the raw author string, the commit timestamp and the message. -/
structure DCommit where
  id : PyStr
  parents : List PyStr
  tree : Tree
  author : PyStr
  commit_time : Nat
  message : PyStr

/-- The `Revision` value constructed by the archiver (a frozen dataclass in
`wily/archivers/__init__.py`, not under `src/`; its fields are exactly the
keyword arguments of the two construction sites in `git.py`). -/
structure Revision where
  key : PyStr
  author_name : PyStr
  author_email : PyStr
  date : Nat
  message : PyStr
  tracked_files : List PyStr
  tracked_dirs : List PyStr
  added_files : List PyStr
  modified_files : List PyStr
  deleted_files : List PyStr

/-- The repository state the archiver manipulates.  `commits` is the object
store restricted to commits; `walk` embeds the output of dulwich's
`get_walker()` without `max_entries` in its forward order (commits reachable
from head, newest first by commit time) — properties of that order are
hypotheses of the theorems, never assumed silently.  `headId` is the commit
the current branch/HEAD points at; `workdir` and `index` are path → blob-sha
maps for the working tree on disk and the git index file. -/
structure GitState where
  commits : List DCommit
  walk : List DCommit
  headId : PyStr
  workdir : List (PyStr × Nat)
  index : List (PyStr × Nat)

/-- Object-store lookup of a commit by id. -/
def lookupCommit (s : GitState) (cid : PyStr) : Option DCommit :=
  s.commits.find? (fun c => c.id = cid)

/-- The literal revision specifier `b"HEAD"`. -/
def headSpec : PyStr := ['H', 'E', 'A', 'D']

/-- Resolving a revision argument as dulwich's `repo[revision]` does for the
specifiers the archiver passes: `b"HEAD"` resolves through the head pointer,
anything else is a commit id looked up in the object store. -/
def resolveRef (s : GitState) (rev : PyStr) : Option DCommit :=
  if rev = headSpec then lookupCommit s s.headId else lookupCommit s rev

/-- Flattened content of the tree of the commit HEAD points at (empty when
the head does not resolve). -/
def headTreeFiles (s : GitState) : List (PyStr × Nat) :=
  match lookupCommit s s.headId with
  | some c => treeFiles c.tree
  | none => []

/-- `a` is contained in `b` as a lookup map. -/
def subMap (a b : List (PyStr × Nat)) : Bool :=
  a.all (fun e => lookupA b e.1 == some e.2)

/-- GitPython's `repo.is_dirty()` with default arguments: true when the index
differs from HEAD's tree or a file recorded in the index is missing from or
differs in the working tree.  Untracked files are NOT considered (the default
is `untracked_files=False`). -/
def is_dirty (s : GitState) : Bool :=
  !(subMap s.index (headTreeFiles s) && subMap (headTreeFiles s) s.index &&
    s.index.all (fun e => lookupA s.workdir e.1 == some e.2))

/-- GitPython's `repo.untracked_files`: paths present in the working tree but
absent from the index. -/
def untracked_files (s : GitState) : List PyStr :=
  (s.workdir.map Prod.fst).filter (fun p => (lookupA s.index p).isNone)

/-- Errors surfaced by `revisions`: the `DirtyGitRepositoryError` carrying
`repo.untracked_files`, or a `KeyError` from `object_store[parents[0]]`. -/
inductive RevErr where
  | dirty (untracked : List PyStr)
  | missingObject
deriving DecidableEq

/-- The body of the walk loop in `GitArchiver.revisions` for one commit:
lists tracked files and directories, takes the root/window-initial branch
(`if not dcommit.parents or not revisions:`) when the commit has no parents
or it is the first iteration (`isFirst`), and otherwise diffs against the
first parent's tree via `whatchanged`.  The returned flag records whether
`whatchanged` was invoked; `none` embeds the `KeyError` raised when the
parent is missing from the object store. -/
def mkRevision (s : GitState) (isFirst : Bool) (c : DCommit) :
    Option (Revision × Bool) :=
  let tf := (get_tracked_files_dirs c.tree).1
  let td := (get_tracked_files_dirs c.tree).2
  let author_name := (pysplit ' ' c.author).getD 0 []
  let author_email := pystrip ['<', '>'] ((pysplit ' ' c.author).getD 1 [])
  if c.parents = [] ∨ isFirst then
    some ({ key := c.id, author_name := author_name,
            author_email := author_email, date := c.commit_time,
            message := c.message, tracked_files := tf, tracked_dirs := td,
            added_files := tf, modified_files := [], deleted_files := [] },
          false)
  else
    match c.parents with
    | [] => none
    | p0 :: _ =>
      match lookupCommit s p0 with
      | none => none
      | some par =>
        let amd := whatchanged c.tree par.tree
        some ({ key := c.id, author_name := author_name,
                author_email := author_email, date := c.commit_time,
                message := c.message, tracked_files := tf, tracked_dirs := td,
                added_files := amd.1, modified_files := amd.2.1,
                deleted_files := amd.2.2 },
              true)

/-- The walk loop of `GitArchiver.revisions`: visits the commits in the order
the (reversed) walker yields them, appending one `Revision` per commit; the
`isFirst` flag is true exactly when the `revisions` accumulator is still
empty. -/
def buildRevs (s : GitState) (isFirst : Bool) :
    List DCommit → Option (List Revision)
  | [] => some []
  | c :: cs =>
    match mkRevision s isFirst c with
    | none => none
    | some (r, _) =>
      match buildRevs s false cs with
      | none => none
      | some rest => some (r :: rest)

/-- `GitArchiver.revisions(path, max_revisions)`: aborts with the dirty error
when `repo.is_dirty()`; otherwise walks
`get_walker(max_entries=max_revisions, reverse=True)` — the walker's forward
(newest-first) output truncated to `max_revisions` entries and then
reversed — and finally returns the accumulated list reversed again
(`revisions[::-1]`). -/
def revisions (s : GitState) (max_revisions : Nat) :
    Except RevErr (List Revision) :=
  if is_dirty s then
    .error (.dirty (untracked_files s))
  else
    match buildRevs s true ((s.walk.take max_revisions).reverse) with
    | none => .error .missingObject
    | some revs => .ok revs.reverse

/-- The effect of dulwich's `build_index_from_tree` on the files on disk:
every file of the tree is written (overwriting any previous content), and
files the tree does not mention are left in place — the function never
deletes. -/
def overlay (wd upd : List (PyStr × Nat)) : List (PyStr × Nat) :=
  upd ++ wd.filter (fun e => (lookupA upd e.1).isNone)

/-- Module-level `checkout(repo, revision=b"HEAD")`: resolves the revision,
then `build_index_from_tree` rebuilds the index file to exactly the tree's
content and materializes the tree into the working directory (an overlay,
see `overlay`).  The head pointer is not touched. -/
def checkout (s : GitState) (revision : PyStr) : Option GitState :=
  match resolveRef s revision with
  | none => none
  | some c =>
    some { s with
           index := treeFiles c.tree,
           workdir := overlay s.workdir (treeFiles c.tree) }

/-- `GitArchiver.checkout(revision, options)`: encodes the revision key and
delegates to the module-level `checkout`; no dirty-state check is made and
`options` is unused. -/
def GitArchiver.checkout (s : GitState) (revision : Revision) :
    Option GitState :=
  WilyGit.checkout s revision.key

/-- `GitArchiver.finish()`: `checkout(self.drepo)` with the default
`b"HEAD"` argument (then closes the GitPython handle, which has no
repository-state effect). -/
def GitArchiver.finish (s : GitState) : Option GitState :=
  WilyGit.checkout s headSpec

/-- Errors surfaced by `GitArchiver.find`: GitPython's `BadName` when the
specifier does not resolve, or a failure to resolve the first parent
(`commit.hexsha + "~1"`). -/
inductive FindErr where
  | notFound
  | missingParent
deriving DecidableEq

/-- GitPython's parsed `commit.author.name`: the author string up to the
` <email>` suffix. -/
def gitAuthorName (a : PyStr) : PyStr :=
  ((a.reverse.dropWhile (· ≠ '<')).drop 1).dropWhile (· = ' ') |>.reverse

/-- GitPython's parsed `commit.author.email`: the text between `<` and `>`. -/
def gitAuthorEmail (a : PyStr) : PyStr :=
  ((a.reverse.takeWhile (· ≠ '<')).reverse.dropWhile (· = '<')).takeWhile
    (· ≠ '>')

/-- `GitArchiver.find(search)`: resolves the specifier with
`self.repo.commit(search)` (not-found error when it does not resolve), lists
tracked files/dirs, and computes the change sets exactly as `revisions` does
for a single commit: the root branch when the commit has no parents, and
otherwise `whatchanged` against the first parent's tree
(`self.repo.commit(commit.hexsha + "~1")`).  The returned key is the first
token of `commit.name_rev`, which is the commit's full hex sha. -/
def GitArchiver.find (s : GitState) (search : PyStr) :
    Except FindErr Revision :=
  match resolveRef s search with
  | none => .error .notFound
  | some c =>
    let tf := (get_tracked_files_dirs c.tree).1
    let td := (get_tracked_files_dirs c.tree).2
    if c.parents = [] then
      .ok { key := c.id, author_name := gitAuthorName c.author,
            author_email := gitAuthorEmail c.author, date := c.commit_time,
            message := c.message, tracked_files := tf, tracked_dirs := td,
            added_files := tf, modified_files := [], deleted_files := [] }
    else
      match c.parents with
      | [] => .error .missingParent
      | p0 :: _ =>
        match lookupCommit s p0 with
        | none => .error .missingParent
        | some par =>
          let amd := whatchanged c.tree par.tree
          .ok { key := c.id, author_name := gitAuthorName c.author,
                author_email := gitAuthorEmail c.author,
                date := c.commit_time, message := c.message,
                tracked_files := tf, tracked_dirs := td,
                added_files := amd.1, modified_files := amd.2.1,
                deleted_files := amd.2.2 }

/-- A sequence of `GitArchiver.checkout` calls (by revision key). -/
def checkoutMany (s : GitState) : List PyStr → Option GitState
  | [] => some s
  | r :: rs =>
    match checkout s r with
    | none => none
    | some s' => checkoutMany s' rs

/-- Extensional equality of two path → sha maps: the same lookup result on
every path (checked on the union of the key sets). -/
def lookupEq (a b : List (PyStr × Nat)) : Bool :=
  (a.map Prod.fst ++ b.map Prod.fst).all (fun p => lookupA a p == lookupA b p)

/-- If the revision key resolves, every path of its tree is also a path of
the current head's tree (vacuously true for unresolvable keys). -/
def keysSubsetHead (s : GitState) (r : PyStr) : Bool :=
  match resolveRef s r with
  | none => true
  | some c =>
    ((treeFiles c.tree).map Prod.fst).all
      (fun p => decide (p ∈ (headTreeFiles s).map Prod.fst))

/-- A well-formed git entry name: non-empty and newline-free (git forbids
empty names and newlines in tree entry names). -/
def nameOk (n : PyStr) : Bool :=
  !n.isEmpty && decide ('\n' ∉ n)

mutual

/-- All entry names in a tree entry are well-formed. -/
def namesOkE : TreeE → Bool
  | .blob n _ => nameOk n
  | .dir n es => nameOk n && namesOkL es

/-- All entry names in a list of tree entries are well-formed. -/
def namesOkL : List TreeE → Bool
  | [] => true
  | e :: es => namesOkE e && namesOkL es

end

section Examples

/-! Concrete repositories used by the witnesses and counterexamples. -/

/-- The path `a.py`. -/
def apy : PyStr := ['a', '.', 'p', 'y']

/-- The path `b.py`. -/
def bpy : PyStr := ['b', '.', 'p', 'y']

/-- The path `c.py`. -/
def cpy : PyStr := ['c', '.', 'p', 'y']

/-- Root commit of the two-commit example repository. -/
def exC1 : DCommit :=
  { id := ['a', '1'], parents := [], tree := [.blob apy 1],
    author := "Alice A <al@b.c>".toList, commit_time := 100,
    message := ['m', '1'] }

/-- Head commit of the two-commit example repository. -/
def exC2 : DCommit :=
  { id := ['b', '2'], parents := [['a', '1']],
    tree := [.blob apy 2, .blob bpy 3],
    author := "First Last <a@b.c>".toList, commit_time := 200,
    message := ['m', '2'] }

/-- A clean two-commit repository, head on `exC2`. -/
def exRepo : GitState :=
  { commits := [exC1, exC2], walk := [exC2, exC1], headId := ['b', '2'],
    workdir := treeFiles exC2.tree, index := treeFiles exC2.tree }

/-- Root commit of the three-commit example repository. -/
def exU1 : DCommit :=
  { id := ['u', '1'], parents := [], tree := [.blob apy 1],
    author := "A A <a@a>".toList, commit_time := 10, message := [] }

/-- Second commit of the three-commit example repository: adds `b.py`,
leaves `a.py` unchanged. -/
def exU2 : DCommit :=
  { id := ['u', '2'], parents := [['u', '1']],
    tree := [.blob apy 1, .blob bpy 2],
    author := "A A <a@a>".toList, commit_time := 20, message := [] }

/-- Head commit of the three-commit example repository: adds `c.py`. -/
def exU3 : DCommit :=
  { id := ['u', '3'], parents := [['u', '2']],
    tree := [.blob apy 1, .blob bpy 2, .blob cpy 3],
    author := "A A <a@a>".toList, commit_time := 30, message := [] }

/-- A clean three-commit repository, head on `exU3`. -/
def exRepo3 : GitState :=
  { commits := [exU1, exU2, exU3], walk := [exU3, exU2, exU1],
    headId := ['u', '3'], workdir := treeFiles exU3.tree,
    index := treeFiles exU3.tree }

/-- Root commit of the checkout example: head tree tracks only `a.py`. -/
def exV1 : DCommit :=
  { id := ['v', '1'], parents := [], tree := [.blob apy 1],
    author := "A A <a@a>".toList, commit_time := 10, message := [] }

/-- A second commit in the store whose tree tracks `b.py` as well. -/
def exV2 : DCommit :=
  { id := ['v', '2'], parents := [['v', '1']],
    tree := [.blob apy 2, .blob bpy 3],
    author := "A A <a@a>".toList, commit_time := 20, message := [] }

/-- A clean repository whose head is `exV1` while `exV2` is in the store. -/
def exRepo5 : GitState :=
  { commits := [exV1, exV2], walk := [exV1], headId := ['v', '1'],
    workdir := treeFiles exV1.tree, index := treeFiles exV1.tree }

/-- A dirty repository: `a.py` is tracked with sha 1 but its working-tree
content differs (sha 99); there are no untracked files. -/
def exDirty : GitState :=
  { commits := [exV1], walk := [exV1], headId := ['v', '1'],
    workdir := [(apy, 99)], index := treeFiles exV1.tree }

/-- A repository whose only change is an untracked file `b.py` (sha 7 on
disk): the index matches the head tree and every tracked file is
unmodified, so GitPython's default `is_dirty()` does not notice it. -/
def exUntracked : GitState :=
  { commits := [exV1], walk := [exV1], headId := ['v', '1'],
    workdir := treeFiles exV1.tree ++ [(bpy, 7)],
    index := treeFiles exV1.tree }

/-- Default revision value used only to extract computed examples. -/
def dRev : Revision :=
  { key := [], author_name := [], author_email := [], date := 0,
    message := [], tracked_files := [], tracked_dirs := [],
    added_files := [], modified_files := [], deleted_files := [] }

/-- The revision list computed for the two-commit repository. -/
def exOut : List Revision :=
  match revisions exRepo 2 with
  | .ok l => l
  | .error _ => []

/-- The revision list computed for the three-commit repository bounded to a
window of two revisions. -/
def exOut3 : List Revision :=
  match revisions exRepo3 2 with
  | .ok l => l
  | .error _ => []

/-- The revision `find` computes for the head of the two-commit repo. -/
def exFindRev : Revision :=
  match GitArchiver.find exRepo ['b', '2'] with
  | .ok r => r
  | .error _ => dRev

/-- The state after checking out `exC1` in `exRepo` and then finishing. -/
def exRestored : GitState :=
  match (checkoutMany exRepo [['a', '1']]).bind GitArchiver.finish with
  | some t => t
  | none => exRepo

/-- The state after the first `finish` in the idempotence witness. -/
def exFinished1 : GitState :=
  match GitArchiver.finish exRepo with
  | some t => t
  | none => exRepo

/-- The state after the second `finish` in the idempotence witness. -/
def exFinished2 : GitState :=
  match GitArchiver.finish exFinished1 with
  | some t => t
  | none => exRepo

/-- A tree with a subdirectory, for the tracked-dirs witness. -/
def exDirTree : Tree :=
  [.blob apy 1, .dir ['d'] [.blob ['e', '.', 'p', 'y'] 2]]

/-- The revision the walk body computes for `exU3` when it is not the
window-initial entry. -/
def exRev3 : Revision :=
  match mkRevision exRepo3 false exU3 with
  | some (r, _) => r
  | none => dRev

/-- A tree holding `d/f` as a file inside a subdirectory. -/
def exTreeNested : Tree := [.dir ['d'] [.blob ['f'] 1]]

/-- A structurally different tree with identical flattened content: the
single file path `d/f` spelled at the root. -/
def exTreeFlat : Tree := [.blob ['d', '/', 'f'] 1]

end Examples

/-! ## Helper lemmas -/

theorem lookupA_append_some {a b : List (PyStr × Nat)} {p : PyStr} {v : Nat}
    (h : lookupA a p = some v) : lookupA (a ++ b) p = some v := by
  induction a with
  | nil => simp [lookupA] at h
  | cons e es ih =>
    rw [List.cons_append]
    by_cases hc : e.1 = p
    · simpa [lookupA, hc] using h
    · rw [lookupA, if_neg hc] at h ⊢
      exact ih h

theorem lookupA_append_none {a b : List (PyStr × Nat)} {p : PyStr}
    (h : lookupA a p = none) : lookupA (a ++ b) p = lookupA b p := by
  induction a with
  | nil => simp
  | cons e es ih =>
    rw [List.cons_append]
    by_cases hc : e.1 = p
    · simp [lookupA, hc] at h
    · rw [lookupA, if_neg hc] at h ⊢
      exact ih h

theorem lookupA_eq_none_iff {l : List (PyStr × Nat)} {p : PyStr} :
    lookupA l p = none ↔ p ∉ l.map Prod.fst := by
  induction l with
  | nil => simp [lookupA]
  | cons e es ih =>
    by_cases hc : e.1 = p
    · simp [lookupA, hc]
    · simp [lookupA, hc, ih, Ne.symm hc]

theorem lookupA_mem {l : List (PyStr × Nat)} {p : PyStr} {v : Nat}
    (h : lookupA l p = some v) : (p, v) ∈ l := by
  induction l with
  | nil => simp [lookupA] at h
  | cons e es ih =>
    by_cases hc : e.1 = p
    · rw [lookupA, if_pos hc] at h
      obtain ⟨e1, e2⟩ := e
      cases hc
      cases h
      exact List.mem_cons_self _ _
    · rw [lookupA, if_neg hc] at h
      exact List.mem_cons_of_mem _ (ih h)

theorem lookupA_isSome_of_mem {l : List (PyStr × Nat)} {p : PyStr} {v : Nat}
    (h : (p, v) ∈ l) : (lookupA l p).isSome = true := by
  induction l with
  | nil => simp at h
  | cons e es ih =>
    rcases List.mem_cons.mp h with h | h
    · subst h
      simp [lookupA]
    · by_cases hc : e.1 = p
      · simp [lookupA, hc]
      · rw [lookupA, if_neg hc]
        exact ih h

theorem lookupA_of_mem_nodup {l : List (PyStr × Nat)} {p : PyStr} {v : Nat}
    (hn : (l.map Prod.fst).Nodup) (h : (p, v) ∈ l) : lookupA l p = some v := by
  induction l with
  | nil => simp at h
  | cons e es ih =>
    rw [List.map_cons, List.nodup_cons] at hn
    rcases List.mem_cons.mp h with h | h
    · subst h
      simp [lookupA]
    · have hne : e.1 ≠ p := by
        intro hc
        exact hn.1 (hc ▸ List.mem_map_of_mem Prod.fst h)
      rw [lookupA, if_neg hne]
      exact ih hn.2 h

theorem lookupA_filter_none {l upd : List (PyStr × Nat)} {p : PyStr}
    (h : lookupA upd p = none) :
    lookupA (l.filter (fun e => (lookupA upd e.1).isNone)) p = lookupA l p := by
  induction l with
  | nil => rfl
  | cons e es ih =>
    rw [List.filter_cons]
    by_cases hc : e.1 = p
    · have hmem : (lookupA upd e.1).isNone = true := by rw [hc, h]; rfl
      rw [if_pos hmem, lookupA, if_pos hc, lookupA, if_pos hc]
    · by_cases hk : (lookupA upd e.1).isNone = true
      · rw [if_pos hk, lookupA, if_neg hc, lookupA, if_neg hc]
        exact ih
      · rw [if_neg hk, lookupA, if_neg hc]
        exact ih

theorem lookupA_overlay {wd upd : List (PyStr × Nat)} {p : PyStr} :
    lookupA (overlay wd upd) p =
      match lookupA upd p with
      | some v => some v
      | none => lookupA wd p := by
  unfold overlay
  cases h : lookupA upd p with
  | some v => exact lookupA_append_some h
  | none => rw [lookupA_append_none h, lookupA_filter_none h]

theorem lookupEq_iff {a b : List (PyStr × Nat)} :
    lookupEq a b = true ↔ ∀ p, lookupA a p = lookupA b p := by
  constructor
  · intro h p
    rw [lookupEq, List.all_eq_true] at h
    by_cases ha : p ∈ a.map Prod.fst
    · exact beq_iff_eq.mp (h p (List.mem_append_left _ ha))
    · by_cases hb : p ∈ b.map Prod.fst
      · exact beq_iff_eq.mp (h p (List.mem_append_right _ hb))
      · rw [lookupA_eq_none_iff.mpr ha, lookupA_eq_none_iff.mpr hb]
  · intro h
    rw [lookupEq, List.all_eq_true]
    intro p _
    exact beq_iff_eq.mpr (h p)

theorem pysplit_ne_nil {sep : Char} {s : List Char} : pysplit sep s ≠ [] := by
  cases s with
  | nil => simp [pysplit]
  | cons c rest =>
    rw [pysplit]
    cases pysplit sep rest with
    | nil => simp
    | cons h t =>
      by_cases hc : c = sep <;> simp [hc]

theorem pysplit_append {sep : Char} {a r : List Char} (h : sep ∉ a) :
    pysplit sep (a ++ sep :: r) = a :: pysplit sep r := by
  induction a with
  | nil =>
    rw [List.nil_append, pysplit]
    cases hr : pysplit sep r with
    | nil => exact absurd hr pysplit_ne_nil
    | cons x t => simp
  | cons c a' ih =>
    have hc : c ≠ sep := fun hcc => h (hcc ▸ List.mem_cons_self c a')
    have ha' : sep ∉ a' := fun hm => h (List.mem_cons_of_mem c hm)
    rw [List.cons_append, pysplit, ih ha']
    simp [hc]

theorem pysplit_flatten {sep : Char} {lines : List (List Char)}
    (h : ∀ l ∈ lines, sep ∉ l) :
    pysplit sep ((lines.map (· ++ [sep])).flatten) = lines ++ [[]] := by
  induction lines with
  | nil => rfl
  | cons l ls ih =>
    rw [List.map_cons, List.flatten_cons, List.append_assoc, List.singleton_append,
      pysplit_append (h l (List.mem_cons_self l ls)),
      ih (fun x hx => h x (List.mem_cons_of_mem l hx))]
    rfl

theorem nameOk_spec {n : PyStr} (h : nameOk n = true) : n ≠ [] ∧ '\n' ∉ n := by
  rw [nameOk, Bool.and_eq_true] at h
  refine ⟨?_, of_decide_eq_true h.2⟩
  intro hn
  subst hn
  simp at h

theorem pjoin_ne_nil {b n : PyStr} (h : n ≠ []) : pjoin b n ≠ [] := by
  rw [pjoin]
  split
  · exact h
  · simp

theorem pjoin_no_nl {b n : PyStr} (hb : '\n' ∉ b) (hn : '\n' ∉ n) :
    '\n' ∉ pjoin b n := by
  rw [pjoin]
  split
  · exact hn
  · intro hm
    rcases List.mem_append.mp hm with hm | hm
    · exact hb hm
    · rcases List.mem_cons.mp hm with hm | hm
      · exact absurd hm.symm (by decide)
      · exact hn hm

mutual

theorem list_tree_entry_ok (d : Bool) (base : PyStr) (e : TreeE)
    (he : namesOkE e = true) (hb : '\n' ∉ base) :
    ∀ l ∈ list_tree_entry d base e, l ≠ [] ∧ '\n' ∉ l := by
  cases e with
  | blob name sha =>
    rw [namesOkE] at he
    intro l hl
    rw [list_tree_entry] at hl
    split at hl
    · rcases List.mem_singleton.mp hl with rfl
      exact ⟨pjoin_ne_nil (nameOk_spec he).1, pjoin_no_nl hb (nameOk_spec he).2⟩
    · simp at hl
  | dir name es =>
    rw [namesOkE, Bool.and_eq_true] at he
    intro l hl
    rw [list_tree_entry] at hl
    rcases List.mem_append.mp hl with hl | hl
    · split at hl
      · rcases List.mem_singleton.mp hl with rfl
        exact ⟨pjoin_ne_nil (nameOk_spec he.1).1,
          pjoin_no_nl hb (nameOk_spec he.1).2⟩
      · simp at hl
    · exact list_tree_entries_ok d (pjoin base name) es he.2
        (pjoin_no_nl hb (nameOk_spec he.1).2) l hl

theorem list_tree_entries_ok (d : Bool) (base : PyStr) (es : List TreeE)
    (he : namesOkL es = true) (hb : '\n' ∉ base) :
    ∀ l ∈ list_tree_entries d base es, l ≠ [] ∧ '\n' ∉ l := by
  cases es with
  | nil =>
    intro l hl
    rw [list_tree_entries] at hl
    simp at hl
  | cons e es' =>
    rw [namesOkL, Bool.and_eq_true] at he
    intro l hl
    rw [list_tree_entries] at hl
    rcases List.mem_append.mp hl with hl | hl
    · exact list_tree_entry_ok d base e he.1 hb l hl
    · exact list_tree_entries_ok d base es' he.2 hb l hl

end

theorem mkRevision_fields {s : GitState} {b : Bool} {c : DCommit}
    {rev : Revision} {fl : Bool} (h : mkRevision s b c = some (rev, fl)) :
    rev.key = c.id ∧ rev.date = c.commit_time ∧
      rev.author_name = (pysplit ' ' c.author).getD 0 [] ∧
      rev.author_email =
        pystrip ['<', '>'] ((pysplit ' ' c.author).getD 1 []) ∧
      rev.tracked_files = (get_tracked_files_dirs c.tree).1 ∧
      rev.tracked_dirs = (get_tracked_files_dirs c.tree).2 := by
  simp only [mkRevision] at h
  split at h
  · injection h with h'
    injection h' with h1 h2
    subst h1
    exact ⟨rfl, rfl, rfl, rfl, rfl, rfl⟩
  · split at h
    · cases h
    · split at h
      · cases h
      · injection h with h'
        injection h' with h1 h2
        subst h1
        exact ⟨rfl, rfl, rfl, rfl, rfl, rfl⟩

theorem mkRevision_root {s : GitState} {b : Bool} {c : DCommit}
    {rev : Revision} {fl : Bool} (hp : c.parents = [])
    (h : mkRevision s b c = some (rev, fl)) :
    rev.key = c.id ∧ rev.added_files = rev.tracked_files ∧
      rev.modified_files = [] ∧ rev.deleted_files = [] ∧ fl = false := by
  simp only [mkRevision] at h
  rw [if_pos (Or.inl hp)] at h
  injection h with h'
  injection h' with h1 h2
  subst h1
  exact ⟨rfl, rfl, rfl, rfl, h2.symm⟩

theorem mkRevision_whatchanged {s : GitState} {c : DCommit} {p0 : PyStr}
    {rest : List PyStr} {par : DCommit} {rev : Revision} {fl : Bool}
    (hp : c.parents = p0 :: rest) (hl : lookupCommit s p0 = some par)
    (h : mkRevision s false c = some (rev, fl)) :
    rev.added_files = (whatchanged c.tree par.tree).1 ∧
      rev.modified_files = (whatchanged c.tree par.tree).2.1 ∧
      rev.deleted_files = (whatchanged c.tree par.tree).2.2 ∧ fl = true := by
  simp only [mkRevision] at h
  rw [if_neg (by simp [hp])] at h
  rw [hp] at h
  simp only [hl] at h
  injection h with h'
  injection h' with h1 h2
  subst h1
  exact ⟨rfl, rfl, rfl, h2.symm⟩

theorem buildRevs_forall₂ {s : GitState} {f : Bool} {cs : List DCommit}
    {l : List Revision} (h : buildRevs s f cs = some l) :
    List.Forall₂ (fun c r => ∃ b fl, mkRevision s b c = some (r, fl)) cs l := by
  induction cs generalizing f l with
  | nil =>
    rw [buildRevs] at h
    injection h with h'
    subst h'
    exact .nil
  | cons c cs ih =>
    rw [buildRevs] at h
    split at h
    · cases h
    · rename_i r fl hmk
      split at h
      · cases h
      · rename_i rest hrest
        injection h with h'
        subst h'
        exact .cons ⟨f, fl, hmk⟩ (ih hrest)

theorem buildRevs_maps {s : GitState} {f : Bool} {cs : List DCommit}
    {l : List Revision} (h : buildRevs s f cs = some l) :
    l.map Revision.key = cs.map DCommit.id ∧
      l.map Revision.date = cs.map DCommit.commit_time := by
  induction cs generalizing f l with
  | nil =>
    rw [buildRevs] at h
    injection h with h'
    subst h'
    exact ⟨rfl, rfl⟩
  | cons c cs ih =>
    rw [buildRevs] at h
    split at h
    · cases h
    · rename_i r fl hmk
      split at h
      · cases h
      · rename_i rest hrest
        injection h with h'
        subst h'
        obtain ⟨hk, hd⟩ := ih hrest
        obtain ⟨hrk, hrd, -⟩ := mkRevision_fields hmk
        simp [hk, hd, hrk, hrd]

theorem revisions_ok_elim {s : GitState} {N : Nat} {out : List Revision}
    (h : revisions s N = .ok out) :
    is_dirty s = false ∧
      ∃ revs, buildRevs s true ((s.walk.take N).reverse) = some revs ∧
        out = revs.reverse := by
  rw [revisions] at h
  split at h
  · cases h
  · rename_i hdirty
    refine ⟨by simpa using hdirty, ?_⟩
    split at h
    · cases h
    · rename_i revs hrevs
      injection h with h'
      exact ⟨revs, hrevs, h'.symm⟩

/-! ## Claim theorems -/

/-- C10: for every commit tree with well-formed entry names, the
`tracked_dirs` list returned by `get_tracked_files_dirs` has the empty
string as its last element (even when the tree has no subdirectories),
while the `tracked_files` list never contains an empty entry. -/
theorem tracked_dirs_trailing_empty (t : Tree) (h : namesOkL t = true) :
    (get_tracked_files_dirs t).2.getLast? = some [] ∧
      [] ∉ (get_tracked_files_dirs t).1 := by
  have hok := list_tree_entries_ok false [] t h (by simp)
  constructor
  · exact List.getLast?_concat _
  · show [] ∉ (pysplit '\n' (ls_tree false t)).erase []
    have hsplit : pysplit '\n' (ls_tree false t) =
        list_tree_entries false [] t ++ [[]] :=
      pysplit_flatten (fun l hl => (hok l hl).2)
    rw [hsplit, List.erase_append_right _ (fun hm => (hok [] hm).1 rfl)]
    intro hm
    rcases List.mem_append.mp hm with hm | hm
    · exact (hok [] hm).1 rfl
    · have : (([[]] : List PyStr).erase []) = [] := rfl
      rw [this] at hm
      exact absurd hm (List.not_mem_nil _)

/-- C10 witness: evaluated on a tree with one file at the root and one in a
subdirectory. -/
theorem tracked_dirs_trailing_empty_witness :
    namesOkL exDirTree = true ∧
      ((get_tracked_files_dirs exDirTree).2.getLast? = some [] ∧
        [] ∉ (get_tracked_files_dirs exDirTree).1) :=
  ⟨rfl, tracked_dirs_trailing_empty exDirTree rfl⟩

/-- C4: every parentless commit in the walked window produces a `Revision`
whose `added_files` equal its `tracked_files` and whose `modified_files`
and `deleted_files` are empty, and the tree differ is not invoked for it
(the invocation flag of the walk body is `false`). -/
theorem root_commit_revision :
    ∀ (s : GitState) (N : Nat) (out : List Revision),
      revisions s N = .ok out →
      ∀ c ∈ s.walk.take N, c.parents = [] →
      ∃ rev ∈ out, rev.key = c.id ∧ rev.added_files = rev.tracked_files ∧
        rev.modified_files = [] ∧ rev.deleted_files = [] ∧
        ∃ b, mkRevision s b c = some (rev, false) := by
  intro s N out hok c hc hp
  obtain ⟨-, revs, hrevs, hout⟩ := revisions_ok_elim hok
  have hf2 := buildRevs_forall₂ hrevs
  rw [List.forall₂_iff_get] at hf2
  obtain ⟨hlen, hget⟩ := hf2
  have hc' : c ∈ (s.walk.take N).reverse := List.mem_reverse.mpr hc
  obtain ⟨i, hi⟩ := List.mem_iff_get.mp hc'
  have hib : (i : Nat) < revs.length := hlen ▸ i.isLt
  obtain ⟨b, fl, hmk⟩ := hget i i.isLt hib
  rw [hi] at hmk
  obtain ⟨hkey, hadd, hmod, hdel, hfl⟩ := mkRevision_root hp hmk
  subst hfl
  refine ⟨revs.get ⟨i, hib⟩, ?_, hkey, hadd, hmod, hdel, b, hmk⟩
  rw [hout]
  exact List.mem_reverse.mpr (revs.get_mem _ _)

/-- C4 witness: the root commit of the two-commit repository. -/
theorem root_commit_revision_witness :
    revisions exRepo 2 = .ok exOut ∧ exC1 ∈ exRepo.walk.take 2 ∧
      exC1.parents = [] ∧
      (∃ rev ∈ exOut, rev.key = exC1.id ∧
        rev.added_files = rev.tracked_files ∧ rev.modified_files = [] ∧
        rev.deleted_files = [] ∧
        ∃ b, mkRevision exRepo b exC1 = some (rev, false)) :=
  ⟨rfl,
   show exC1 ∈ [exC2, exC1] from
     List.mem_cons_of_mem _ (List.mem_cons_self _ _),
   rfl,
   root_commit_revision exRepo 2 exOut rfl exC1
     (show exC1 ∈ [exC2, exC1] from
       List.mem_cons_of_mem _ (List.mem_cons_self _ _)) rfl⟩

/-- C1 counterexample: on a clean two-commit repository (commit times 100
then 200), `revisions(path, 2)` returns the dates `[200, 100]` — newest
first — so the output is not ordered oldest-to-newest with strictly
increasing commit time as the claim states. -/
theorem revisions_oldest_first_cex :
    (revisions exRepo 2).toOption.map (fun l => l.map Revision.date) =
        some [200, 100] ∧
      ¬ List.Pairwise (fun a b : Nat => a < b) [200, 100] :=
  ⟨rfl, by decide⟩

/-- C1 (amended): `revisions(path, N)` returns at most `N` entries with
pairwise-distinct keys, ordered newest-to-oldest (strictly decreasing
commit time), assuming the walker yields distinct commits in strictly
decreasing commit-time order. -/
theorem revisions_window_order :
    ∀ (s : GitState) (N : Nat) (out : List Revision),
      revisions s N = .ok out →
      (s.walk.map DCommit.id).Nodup →
      s.walk.Pairwise (fun a b => b.commit_time < a.commit_time) →
      out.length ≤ N ∧ (out.map Revision.key).Nodup ∧
        out.Pairwise (fun a b => b.date < a.date) := by
  intro s N out hok hids htimes
  obtain ⟨-, revs, hrevs, hout⟩ := revisions_ok_elim hok
  obtain ⟨hk, hd⟩ := buildRevs_maps hrevs
  have hkey : out.map Revision.key = (s.walk.take N).map DCommit.id := by
    rw [hout, List.map_reverse, hk, List.map_reverse, List.reverse_reverse]
  have hdate : out.map Revision.date = (s.walk.take N).map DCommit.commit_time := by
    rw [hout, List.map_reverse, hd, List.map_reverse, List.reverse_reverse]
  refine ⟨?_, ?_, ?_⟩
  · have := congrArg List.length hkey
    rw [List.length_map, List.length_map] at this
    rw [this]
    exact List.length_take_le _ _
  · rw [hkey, List.map_take]
    exact List.Nodup.sublist (List.take_sublist _ _) hids
  · have hsub : (s.walk.take N).Pairwise
        (fun a b => b.commit_time < a.commit_time) :=
      List.Pairwise.sublist (List.take_sublist _ _) htimes
    have hm : ((s.walk.take N).map DCommit.commit_time).Pairwise
        (fun x y : Nat => y < x) := List.pairwise_map.mpr hsub
    rw [← hdate] at hm
    exact List.pairwise_map.mp hm

/-- C1 witness: the amended ordering property evaluated on the two-commit
repository. -/
theorem revisions_window_order_witness :
    revisions exRepo 2 = .ok exOut ∧ (exRepo.walk.map DCommit.id).Nodup ∧
      exRepo.walk.Pairwise (fun a b => b.commit_time < a.commit_time) ∧
      (exOut.length ≤ 2 ∧ (exOut.map Revision.key).Nodup ∧
        exOut.Pairwise (fun a b => b.date < a.date)) :=
  ⟨rfl, by decide, by decide,
   revisions_window_order exRepo 2 exOut rfl (by decide) (by decide)⟩

/-- C9: every `Revision` produced by `revisions` carries as `author_name`
the first space-separated token of the walked commit's raw author string,
and as `author_email` the second token with `<` and `>` stripped; for a
commit authored as `First Last <a@b.c>` the revision carries author name
`First` and author email `Last`, not the email address. -/
theorem revision_author_tokens :
    ∀ (s : GitState) (N : Nat) (out : List Revision),
      revisions s N = .ok out →
      ∀ rev ∈ out, ∃ c, c ∈ s.walk.take N ∧
        rev.author_name = (pysplit ' ' c.author).getD 0 [] ∧
        rev.author_email =
          pystrip ['<', '>'] ((pysplit ' ' c.author).getD 1 []) ∧
        (c.author = "First Last <a@b.c>".toList →
          rev.author_name = "First".toList ∧
            rev.author_email = "Last".toList) := by
  intro s N out hok rev hrev
  obtain ⟨-, revs, hrevs, hout⟩ := revisions_ok_elim hok
  have hrev' : rev ∈ revs := by
    rw [hout] at hrev
    exact List.mem_reverse.mp hrev
  have hf2 := buildRevs_forall₂ hrevs
  rw [List.forall₂_iff_get] at hf2
  obtain ⟨hlen, hget⟩ := hf2
  obtain ⟨i, hi⟩ := List.mem_iff_get.mp hrev'
  have hia : (i : Nat) < (s.walk.take N).reverse.length := by
    have := i.isLt
    omega
  obtain ⟨b, fl, hmk⟩ := hget i hia i.isLt
  rw [hi] at hmk
  obtain ⟨-, -, hname, hemail, -, -⟩ := mkRevision_fields hmk
  refine ⟨(s.walk.take N).reverse.get ⟨i, hia⟩,
    List.mem_reverse.mp (List.get_mem _ _ _), hname, hemail, ?_⟩
  intro hauth
  rw [hauth] at hname hemail
  constructor
  · rw [hname]
    decide
  · rw [hemail]
    decide

/-- C9 witness: the head revision of the two-commit repository, whose
commit is authored as `First Last <a@b.c>`. -/
theorem revision_author_tokens_witness :
    revisions exRepo 2 = .ok exOut ∧ exOut.headD dRev ∈ exOut ∧
      (∃ c, c ∈ exRepo.walk.take 2 ∧
        (exOut.headD dRev).author_name = (pysplit ' ' c.author).getD 0 [] ∧
        (exOut.headD dRev).author_email =
          pystrip ['<', '>'] ((pysplit ' ' c.author).getD 1 []) ∧
        (c.author = "First Last <a@b.c>".toList →
          (exOut.headD dRev).author_name = "First".toList ∧
            (exOut.headD dRev).author_email = "Last".toList)) :=
  ⟨rfl, List.mem_cons_self _ _,
   revision_author_tokens exRepo 2 exOut rfl (exOut.headD dRev)
     (List.mem_cons_self _ _)⟩

/-- C2 counterexample, refuting the claim in three ways.  (1) A repository
whose only change is an untracked file `b.py` is dirty in the claim's sense,
yet `repo.is_dirty()` (whose default ignores untracked files) is false and
the walk proceeds with no error at all.  (2) A repository whose tracked
file `a.py` has modified working-tree content (sha 99 on disk versus sha 1
in the index) and no untracked files does abort, but the dirty error
enumerates no path (it carries only `untracked_files`, which is empty).
(3) `GitArchiver.checkout` on that dirty repository proceeds without any
dirty-state failure. -/
theorem dirty_handling_cex :
    untracked_files exUntracked = [bpy] ∧
      is_dirty exUntracked = false ∧
      (revisions exUntracked 1).toOption.isSome = true ∧
      is_dirty exDirty = true ∧
      lookupA exDirty.workdir apy = some 99 ∧
      lookupA exDirty.index apy = some 1 ∧
      untracked_files exDirty = [] ∧
      revisions exDirty 1 = .error (.dirty []) ∧
      (GitArchiver.checkout exDirty { dRev with key := ['v', '1'] }).isSome
        = true :=
  ⟨rfl, rfl, rfl, rfl, rfl, rfl, rfl, rfl, rfl⟩

/-- C2 (amended): `revisions` aborts with a dirty-state error exactly when
GitPython's default `repo.is_dirty()` is true — the index differs from the
head tree or a tracked file is modified or missing in the working tree;
when it aborts, the error carries only the repository's untracked files.
A working tree dirty only through untracked files does not trigger the
check and the walk proceeds; `checkout` performs no dirty-state check at
all. -/
theorem revisions_dirty_check :
    ∀ (s : GitState) (N : Nat),
      (is_dirty s = true →
        revisions s N = .error (.dirty (untracked_files s))) ∧
      (is_dirty s = false →
        ∀ l, revisions s N ≠ .error (.dirty l)) := by
  intro s N
  constructor
  · intro h
    rw [revisions, if_pos h]
  · intro h l
    rw [revisions, if_neg (by rw [h]; exact Bool.false_ne_true)]
    split
    · intro hc
      cases hc
    · intro hc
      cases hc

/-- C2 witness: the tracked-modification repository aborts with its (empty)
untracked-file list, and the untracked-only repository raises no dirty
error. -/
theorem revisions_dirty_check_witness :
    is_dirty exDirty = true ∧
      revisions exDirty 1 = .error (.dirty (untracked_files exDirty)) ∧
      is_dirty exUntracked = false ∧
      revisions exUntracked 1 ≠
        .error (.dirty (untracked_files exUntracked)) :=
  ⟨rfl, (revisions_dirty_check exDirty 1).1 rfl, rfl,
   (revisions_dirty_check exUntracked 1).2 rfl (untracked_files exUntracked)⟩

/-- C7: the tree differ is deterministic — a pure function of the content
the tree identities denote in the object store: any two trees with
identical flattened content produce identical added/modified/deleted
sets on every invocation. -/
theorem whatchanged_deterministic :
    ∀ (tree_a tree_b tree_a' tree_b' : Tree),
      treeFiles tree_a = treeFiles tree_a' →
      treeFiles tree_b = treeFiles tree_b' →
      whatchanged tree_a tree_b = whatchanged tree_a' tree_b' := by
  intro ta tb ta' tb' ha hb
  rw [whatchanged, whatchanged, ha, hb]

/-- C7 witness: two structurally different spellings of the same tree
content (`d/f` nested versus flat) diff identically against a common
tree. -/
theorem whatchanged_deterministic_witness :
    treeFiles exTreeNested = treeFiles exTreeFlat ∧
      treeFiles exC1.tree = treeFiles exC1.tree ∧
      whatchanged exTreeNested exC1.tree = whatchanged exTreeFlat exC1.tree :=
  ⟨rfl, rfl, whatchanged_deterministic _ _ _ _ rfl rfl⟩

/-- C8: `finish` is safe to call with no checkout pending (it succeeds
whenever HEAD resolves) and idempotent: a second `finish` leaves the head
pointer, the index and the working tree (extensionally) exactly as the
first one did. -/
theorem finish_idempotent_safe :
    ∀ (s : GitState) (c : DCommit), resolveRef s headSpec = some c →
      ∃ s1 s2, GitArchiver.finish s = some s1 ∧
        GitArchiver.finish s1 = some s2 ∧ s2.headId = s1.headId ∧
        s2.index = s1.index ∧ lookupEq s2.workdir s1.workdir = true := by
  intro s c h
  have h1 : GitArchiver.finish s =
      some { s with index := treeFiles c.tree,
                    workdir := overlay s.workdir (treeFiles c.tree) } := by
    rw [GitArchiver.finish, checkout, h]
  have h2 : GitArchiver.finish
      { s with index := treeFiles c.tree,
               workdir := overlay s.workdir (treeFiles c.tree) } =
      some { s with index := treeFiles c.tree,
                    workdir := overlay (overlay s.workdir (treeFiles c.tree))
                      (treeFiles c.tree) } := by
    rw [GitArchiver.finish, checkout,
      show resolveRef
        { s with index := treeFiles c.tree,
                 workdir := overlay s.workdir (treeFiles c.tree) }
        headSpec = some c from h]
  refine ⟨_, _, h1, h2, rfl, rfl, lookupEq_iff.mpr ?_⟩
  intro p
  rw [lookupA_overlay, lookupA_overlay]
  cases lookupA (treeFiles c.tree) p with
  | some v => rfl
  | none => rfl

/-- C8 witness: finishing the clean two-commit repository twice. -/
theorem finish_idempotent_safe_witness :
    resolveRef exRepo headSpec = some exC2 ∧
      (∃ s1 s2, GitArchiver.finish exRepo = some s1 ∧
        GitArchiver.finish s1 = some s2 ∧ s2.headId = s1.headId ∧
        s2.index = s1.index ∧ lookupEq s2.workdir s1.workdir = true) :=
  ⟨rfl, finish_idempotent_safe exRepo exC2 rfl⟩

theorem mem_filter_map_fst {l : List (PyStr × Nat)}
    {pred : PyStr × Nat → Bool} {p : PyStr} :
    p ∈ (l.filter pred).map Prod.fst ↔
      ∃ v, (p, v) ∈ l ∧ pred (p, v) = true := by
  rw [List.mem_map]
  constructor
  · rintro ⟨⟨q, v⟩, hmem, rfl⟩
    rw [List.mem_filter] at hmem
    exact ⟨v, hmem.1, hmem.2⟩
  · rintro ⟨v, hmem, hpred⟩
    exact ⟨(p, v), List.mem_filter.mpr ⟨hmem, hpred⟩, rfl⟩

theorem mem_added_iff {tree_a tree_b : Tree} {p : PyStr} :
    p ∈ (whatchanged tree_a tree_b).1 ↔
      (lookupA (treeFiles tree_a) p).isSome = true ∧
        lookupA (treeFiles tree_b) p = none := by
  show p ∈ ((treeFiles tree_a).filter _).map Prod.fst ↔ _
  rw [mem_filter_map_fst]
  constructor
  · rintro ⟨v, hmem, hpred⟩
    exact ⟨lookupA_isSome_of_mem hmem, Option.isNone_iff_eq_none.mp hpred⟩
  · rintro ⟨hsome, hnone⟩
    obtain ⟨v, hv⟩ := Option.isSome_iff_exists.mp hsome
    exact ⟨v, lookupA_mem hv, Option.isNone_iff_eq_none.mpr hnone⟩

theorem mem_deleted_iff {tree_a tree_b : Tree} {p : PyStr} :
    p ∈ (whatchanged tree_a tree_b).2.2 ↔
      (lookupA (treeFiles tree_b) p).isSome = true ∧
        lookupA (treeFiles tree_a) p = none := by
  show p ∈ ((treeFiles tree_b).filter _).map Prod.fst ↔ _
  rw [mem_filter_map_fst]
  constructor
  · rintro ⟨v, hmem, hpred⟩
    exact ⟨lookupA_isSome_of_mem hmem, Option.isNone_iff_eq_none.mp hpred⟩
  · rintro ⟨hsome, hnone⟩
    obtain ⟨v, hv⟩ := Option.isSome_iff_exists.mp hsome
    exact ⟨v, lookupA_mem hv, Option.isNone_iff_eq_none.mpr hnone⟩

theorem mem_modified_iff {tree_a tree_b : Tree} {p : PyStr}
    (hn : ((treeFiles tree_a).map Prod.fst).Nodup) :
    p ∈ (whatchanged tree_a tree_b).2.1 ↔
      ∃ a b, lookupA (treeFiles tree_a) p = some a ∧
        lookupA (treeFiles tree_b) p = some b ∧ b ≠ a := by
  show p ∈ ((treeFiles tree_a).filter _).map Prod.fst ↔ _
  rw [mem_filter_map_fst]
  constructor
  · rintro ⟨v, hmem, hpred⟩
    refine ⟨v, ?_⟩
    cases ho : lookupA (treeFiles tree_b) p with
    | none => rw [ho] at hpred; cases hpred
    | some s =>
      rw [ho] at hpred
      exact ⟨s, lookupA_of_mem_nodup hn hmem, rfl, bne_iff_ne.mp hpred⟩
  · rintro ⟨a, b, hna, hob, hne⟩
    refine ⟨a, lookupA_mem hna, ?_⟩
    rw [hob]
    exact bne_iff_ne.mpr hne

/-- C3 counterexample: in the three-commit repository walked with
`max_revisions = 2`, commit `u2` has parent `u1` and appears in the output
of `revisions`, yet its change sets are `added = [a.py, b.py]`,
`modified = deleted = []` — their union contains `a.py` although `a.py` is
identical in `tree(u2)` and `tree(u1)`, so the union is not the set of
differing paths.  (The walk treats the oldest commit of a bounded window
like a root: `if not dcommit.parents or not revisions`.) -/
theorem window_initial_diff_cex :
    (revisions exRepo3 2).toOption.map
        (fun l => l.map (fun r =>
          (r.key, r.added_files, r.modified_files, r.deleted_files))) =
      some [(['u', '3'], [cpy], [], []),
            (['u', '2'], [apy, bpy], [], [])] ∧
      exU2.parents = [exU1.id] ∧
      lookupA (treeFiles exU2.tree) apy = lookupA (treeFiles exU1.tree) apy :=
  ⟨rfl, rfl, rfl⟩

/-- C3 (amended): for every walked commit with a parent that is not the
window-initial entry (the walk body with `isFirst = false`), the three
change sets are pairwise disjoint and their union is exactly the set of
paths whose content or existence differs between the commit's tree and its
first parent's tree. -/
theorem walk_changesets_partition :
    ∀ (s : GitState) (c : DCommit) (p0 : PyStr) (rest : List PyStr)
      (par : DCommit) (rev : Revision) (fl : Bool),
      c.parents = p0 :: rest → lookupCommit s p0 = some par →
      mkRevision s false c = some (rev, fl) →
      ((treeFiles c.tree).map Prod.fst).Nodup →
      rev.added_files.Disjoint rev.modified_files ∧
        rev.added_files.Disjoint rev.deleted_files ∧
        rev.modified_files.Disjoint rev.deleted_files ∧
        ∀ p, (p ∈ rev.added_files ∨ p ∈ rev.modified_files ∨
            p ∈ rev.deleted_files) ↔
          lookupA (treeFiles c.tree) p ≠ lookupA (treeFiles par.tree) p := by
  intro s c p0 rest par rev fl hp hl hmk hn
  obtain ⟨ha, hm, hd, -⟩ := mkRevision_whatchanged hp hl hmk
  rw [ha, hm, hd]
  refine ⟨?_, ?_, ?_, ?_⟩
  · intro p hpa hpm
    obtain ⟨-, hnone⟩ := mem_added_iff.mp hpa
    obtain ⟨a, b, -, hob, -⟩ := (mem_modified_iff hn).mp hpm
    rw [hnone] at hob
    cases hob
  · intro p hpa hpd
    obtain ⟨hsome, -⟩ := mem_added_iff.mp hpa
    obtain ⟨-, hnone⟩ := mem_deleted_iff.mp hpd
    rw [hnone] at hsome
    cases hsome
  · intro p hpm hpd
    obtain ⟨a, b, hna, -, -⟩ := (mem_modified_iff hn).mp hpm
    obtain ⟨-, hnone⟩ := mem_deleted_iff.mp hpd
    rw [hnone] at hna
    cases hna
  · intro p
    rw [mem_added_iff, mem_modified_iff hn, mem_deleted_iff]
    cases hnew : lookupA (treeFiles c.tree) p with
    | some a =>
      cases hold : lookupA (treeFiles par.tree) p with
      | some b =>
        constructor
        · rintro (⟨-, h⟩ | ⟨x, y, hx, hy, hxy⟩ | ⟨-, h⟩)
          · cases h
          · injection hx with hx
            injection hy with hy
            subst hx hy
            intro hab
            injection hab with hab
            exact hxy hab.symm
          · cases h
        · intro hne
          refine Or.inr (Or.inl ⟨a, b, rfl, rfl, ?_⟩)
          intro hba
          exact hne (by rw [hba])
      | none =>
        simp
    | none =>
      cases hold : lookupA (treeFiles par.tree) p with
      | some b => simp
      | none => simp

/-- C3 witness: the partition property evaluated for commit `u3` diffed
against its parent `u2`, instantiated at the path `a.py`. -/
theorem walk_changesets_partition_witness :
    exU3.parents = [['u', '2']] ∧
      lookupCommit exRepo3 ['u', '2'] = some exU2 ∧
      mkRevision exRepo3 false exU3 = some (exRev3, true) ∧
      ((treeFiles exU3.tree).map Prod.fst).Nodup ∧
      ((apy ∈ exRev3.added_files ∨ apy ∈ exRev3.modified_files ∨
          apy ∈ exRev3.deleted_files) ↔
        lookupA (treeFiles exU3.tree) apy ≠
          lookupA (treeFiles exU2.tree) apy) :=
  ⟨rfl, rfl, rfl, by decide,
   (walk_changesets_partition exRepo3 exU3 ['u', '2'] [] exU2 exRev3 true
     rfl rfl rfl (by decide)).2.2.2 apy⟩

theorem lookupCommit_congr {s t : GitState} (h : t.commits = s.commits) :
    ∀ cid, lookupCommit t cid = lookupCommit s cid := by
  intro cid
  rw [lookupCommit, lookupCommit, h]

theorem resolveRef_congr {s t : GitState} (hc : t.commits = s.commits)
    (hh : t.headId = s.headId) : ∀ r, resolveRef t r = resolveRef s r := by
  intro r
  rw [resolveRef, resolveRef, hh, lookupCommit_congr hc, lookupCommit_congr hc]

theorem headTreeFiles_congr {s t : GitState} (hc : t.commits = s.commits)
    (hh : t.headId = s.headId) : headTreeFiles t = headTreeFiles s := by
  rw [headTreeFiles, headTreeFiles, hh, lookupCommit_congr hc]

theorem keysSubsetHead_congr {s t : GitState} (hc : t.commits = s.commits)
    (hh : t.headId = s.headId) :
    ∀ r, keysSubsetHead t r = keysSubsetHead s r := by
  intro r
  rw [keysSubsetHead, keysSubsetHead, resolveRef_congr hc hh,
    headTreeFiles_congr hc hh]

theorem checkout_elim {s s' : GitState} {r : PyStr}
    (h : checkout s r = some s') :
    ∃ c, resolveRef s r = some c ∧
      s' = { s with index := treeFiles c.tree,
                    workdir := overlay s.workdir (treeFiles c.tree) } := by
  rw [checkout] at h
  split at h
  · cases h
  · rename_i c hres
    injection h with h'
    exact ⟨c, hres, h'.symm⟩

theorem chain_keeps {revs : List PyStr} :
    ∀ {s t : GitState}, checkoutMany s revs = some t →
      t.commits = s.commits ∧ t.headId = s.headId := by
  induction revs with
  | nil =>
    intro s t h
    rw [checkoutMany] at h
    injection h with h'
    subst h'
    exact ⟨rfl, rfl⟩
  | cons r rs ih =>
    intro s t h
    rw [checkoutMany] at h
    split at h
    · cases h
    · rename_i s1 h1
      obtain ⟨c, -, hs1⟩ := checkout_elim h1
      obtain ⟨hc, hh⟩ := ih h
      subst hs1
      exact ⟨hc, hh⟩

theorem chain_workdir_none {p : PyStr} {revs : List PyStr} :
    ∀ {s t : GitState}, checkoutMany s revs = some t →
      (∀ r ∈ revs, keysSubsetHead s r = true) →
      lookupA (headTreeFiles s) p = none → lookupA s.workdir p = none →
      lookupA t.workdir p = none := by
  induction revs with
  | nil =>
    intro s t h _ _ hwd
    rw [checkoutMany] at h
    injection h with h'
    subst h'
    exact hwd
  | cons r rs ih =>
    intro s t h hsub hhead hwd
    rw [checkoutMany] at h
    split at h
    · cases h
    · rename_i s1 h1
      obtain ⟨c, hres, hs1⟩ := checkout_elim h1
      have htree : lookupA (treeFiles c.tree) p = none := by
        rw [lookupA_eq_none_iff]
        intro hmem
        have hks := hsub r (List.mem_cons_self r rs)
        rw [keysSubsetHead, hres, List.all_eq_true] at hks
        have := of_decide_eq_true (hks p hmem)
        exact lookupA_eq_none_iff.mp hhead this
      have hwd1 : lookupA s1.workdir p = none := by
        rw [hs1]
        show lookupA (overlay s.workdir (treeFiles c.tree)) p = none
        rw [lookupA_overlay, htree]
        exact hwd
      have hcomm : s1.commits = s.commits := by rw [hs1]
      have hhid : s1.headId = s.headId := by rw [hs1]
      refine ih h ?_ ?_ hwd1
      · intro r' hr'
        rw [keysSubsetHead_congr hcomm hhid]
        exact hsub r' (List.mem_cons_of_mem r hr')
      · rw [headTreeFiles_congr hcomm hhid]
        exact hhead

/-- C5 counterexample: in a clean repository whose head tree tracks only
`a.py`, checking out revision `v2` (which also tracks `b.py`) and then
calling `finish` leaves `b.py` on disk with the checked-out content even
though it was absent before the checkout — the working tree is not restored
to its exact pre-checkout state (the head pointer, never moved, is).  The
restore only overwrites the head tree's files; it deletes nothing. -/
theorem checkout_finish_stale_cex :
    is_dirty exRepo5 = false ∧
      lookupA exRepo5.workdir bpy = none ∧
      ((GitArchiver.find exRepo5 ['v', '2']).toOption.bind (fun rev =>
        (GitArchiver.checkout exRepo5 rev).bind GitArchiver.finish)).map
          (fun t => (lookupA t.workdir bpy, t.headId)) =
        some (some 3, ['v', '1']) :=
  ⟨rfl, rfl, rfl⟩

/-- C5 (amended): if the working tree and index are clean (equal to the
head tree) before any checkout and every checked-out revision's tree only
contains paths the head tree also tracks, then any sequence of checkouts
followed by `finish` restores the head pointer, the index and (the lookup
content of) the working tree exactly; the head pointer is restored
unconditionally. -/
theorem checkout_finish_restore :
    ∀ (s : GitState) (revs : List PyStr),
      s.workdir = headTreeFiles s → s.index = headTreeFiles s →
      (∀ r ∈ revs, keysSubsetHead s r = true) →
      ∀ s2, (checkoutMany s revs).bind GitArchiver.finish = some s2 →
        s2.headId = s.headId ∧ s2.index = s.index ∧
        lookupEq s2.workdir s.workdir = true := by
  intro s revs hwd hidx hsub s2 h
  obtain ⟨s1, h1, h2⟩ := Option.bind_eq_some.mp h
  obtain ⟨hcomm, hhead⟩ := chain_keeps h1
  rw [GitArchiver.finish] at h2
  obtain ⟨c, hres, hs2⟩ := checkout_elim h2
  rw [resolveRef_congr hcomm hhead headSpec] at hres
  have hheadc : lookupCommit s s.headId = some c := by
    rw [resolveRef] at hres
    simpa using hres
  have hht : headTreeFiles s = treeFiles c.tree := by
    rw [headTreeFiles, hheadc]
  refine ⟨?_, ?_, lookupEq_iff.mpr ?_⟩
  · rw [hs2]
    exact hhead
  · rw [hs2]
    show treeFiles c.tree = s.index
    rw [hidx, hht]
  · intro p
    rw [hs2]
    show lookupA (overlay s1.workdir (treeFiles c.tree)) p = lookupA s.workdir p
    rw [lookupA_overlay]
    cases hc : lookupA (treeFiles c.tree) p with
    | some v =>
      rw [hwd, hht, hc]
    | none =>
      have hnone : lookupA s.workdir p = none := by
        rw [hwd, hht]
        exact hc
      rw [hnone]
      exact chain_workdir_none h1 hsub (by rw [hht]; exact hc) hnone

/-- C5 witness: checking out the root commit of the two-commit repository
and finishing restores head pointer, index and working tree. -/
theorem checkout_finish_restore_witness :
    exRepo.workdir = headTreeFiles exRepo ∧
      exRepo.index = headTreeFiles exRepo ∧
      (∀ r ∈ [['a', '1']], keysSubsetHead exRepo r = true) ∧
      (checkoutMany exRepo [['a', '1']]).bind GitArchiver.finish =
        some exRestored ∧
      (exRestored.headId = exRepo.headId ∧
        exRestored.index = exRepo.index ∧
        lookupEq exRestored.workdir exRepo.workdir = true) :=
  ⟨rfl, rfl, by decide, rfl,
   checkout_finish_restore exRepo [['a', '1']] rfl rfl (by decide)
     exRestored rfl⟩

/-- C6: for every specifier that resolves to a commit, `find` returns a
`Revision` whose key and added/modified/deleted change sets equal those the
walk body of `revisions` computes for that commit (the same diff
computation applied to a single commit — root commits get
`added = tracked`, others are diffed against the first parent); for every
specifier that does not resolve, `find` fails with a not-found error. -/
theorem find_matches_walk_computation :
    ∀ (s : GitState) (search : PyStr),
      (resolveRef s search = none →
        GitArchiver.find s search = .error .notFound) ∧
      (∀ c rev, resolveRef s search = some c →
        GitArchiver.find s search = .ok rev →
        ∃ wrev fl, mkRevision s false c = some (wrev, fl) ∧
          rev.key = wrev.key ∧
          rev.added_files = wrev.added_files ∧
          rev.modified_files = wrev.modified_files ∧
          rev.deleted_files = wrev.deleted_files) := by
  intro s search
  constructor
  · intro h
    rw [GitArchiver.find, h]
  · intro c rev hres hfind
    simp only [GitArchiver.find, hres] at hfind
    split at hfind
    · rename_i hp
      injection hfind with hfind
      subst hfind
      have hmk : mkRevision s false c =
          some ({ key := c.id,
                  author_name := (pysplit ' ' c.author).getD 0 [],
                  author_email :=
                    pystrip ['<', '>'] ((pysplit ' ' c.author).getD 1 []),
                  date := c.commit_time, message := c.message,
                  tracked_files := (get_tracked_files_dirs c.tree).1,
                  tracked_dirs := (get_tracked_files_dirs c.tree).2,
                  added_files := (get_tracked_files_dirs c.tree).1,
                  modified_files := [], deleted_files := [] }, false) := by
        simp only [mkRevision]
        rw [if_pos (Or.inl hp)]
      exact ⟨_, _, hmk, rfl, rfl, rfl, rfl⟩
    · rename_i hp
      split at hfind
      · cases hfind
      · rename_i p0 rest hp0
        split at hfind
        · cases hfind
        · rename_i par hpar
          injection hfind with hfind
          subst hfind
          have hex : ∃ wrev fl, mkRevision s false c = some (wrev, fl) := by
            simp only [mkRevision]
            rw [if_neg (by simp [hp0])]
            rw [hp0]
            simp only [hpar]
            exact ⟨_, _, rfl⟩
          obtain ⟨wrev, fl, hmk⟩ := hex
          obtain ⟨ha, hm, hd, -⟩ := mkRevision_whatchanged hp0 hpar hmk
          obtain ⟨hk, -⟩ := mkRevision_fields hmk
          exact ⟨wrev, fl, hmk, hk.symm, ha.symm, hm.symm, hd.symm⟩

/-- C6 witness: `find` on the head commit key of the two-commit repository
agrees with the walk computation for that commit. -/
theorem find_matches_walk_computation_witness :
    resolveRef exRepo ['b', '2'] = some exC2 ∧
      GitArchiver.find exRepo ['b', '2'] = .ok exFindRev ∧
      (∃ wrev fl, mkRevision exRepo false exC2 = some (wrev, fl) ∧
        exFindRev.key = wrev.key ∧
        exFindRev.added_files = wrev.added_files ∧
        exFindRev.modified_files = wrev.modified_files ∧
        exFindRev.deleted_files = wrev.deleted_files) :=
  ⟨rfl, rfl,
   (find_matches_walk_computation exRepo ['b', '2']).2 exC2 exFindRev
     rfl rfl⟩

end WilyGit
